import Mathlib

/-!
# Verification of the LRU-IPV cache replacement policy (`lru_ipv.cc` / `lru_ipv.hh`)

Shallow embedding of the `LRUIPVRP` replacement policy from the repository.

Modelling conventions:
* `std::vector<uint64_t>` age vectors become `List Nat`.  The only arithmetic
  performed on ages by the source is `v[i] += 1` (in `insertNearLRU`) and the
  guarded `v[i] -= 1` (in `promoteToMRU`, under `v[i] > old`, so no wrap-around
  is possible there).  The increment is modelled with an explicit `% 2^64`.
* `int` / `uint32_t` configuration parameters are modelled as `Int` (for the
  raw constructor parameters, where signedness matters) and `Nat` elsewhere.
* The mutable per-set map `std::unordered_map<uint32_t, std::vector<uint64_t>>`
  becomes a total function `Nat → List Nat`; `operator[]` on an absent key
  yields the default-constructed empty vector, i.e. `[]`.
* `fatal_if` / `panic_if` (the only two error paths) are modelled by returning
  `Option`: `none` is the fatal termination.
* `std::stable_sort` is modelled by `List.insertionSort`, which is a stable
  sort; a stable sort's output is uniquely determined by the comparator and
  the input order, so this is extensionally the behaviour of `std::stable_sort`.
  The C++ comparator is the strict `v[a] < v[b]`; a stable sort driven by the
  strict comparator coincides with the stable insertion sort driven by the
  non-strict `v[a] ≤ v[b]` on a totally ordered key type.
-/

namespace LRUIPV

/-- The number of values of `uint64_t`. -/
def U64 : Nat := 2 ^ 64

/-- `struct IPVReplData` from `lru_ipv.hh`: per-entry replacement metadata. -/
structure IPVReplData where
  age : Nat
  valid : Bool
  set : Nat
  way : Nat
deriving DecidableEq, Repr

/-- A `ReplaceableEntry*` candidate as seen by `getVictim`: it exposes
`getSet()`, `getWay()` and its `replacementData` record. -/
structure Candidate where
  set : Nat
  way : Nat
  data : IPVReplData
deriving DecidableEq, Repr

/-- The `idx` list of `LRUIPVRP::normalize`: the indices `0..size-1` stably
sorted by the corresponding vector value. -/
def sortIdx (v : List Nat) : List Nat :=
  (List.range v.length).insertionSort (fun a b => v.getD a 0 ≤ v.getD b 0)

/-- `LRUIPVRP::normalize`: stable-sort the indices by age, then relabel the
vector to `0..N-1` in sorted-index order.  The entry at index `i` receives the
position of `i` in the stably sorted index list. -/
def normalize (v : List Nat) : List Nat :=
  (List.range v.length).map (fun i => (sortIdx v).indexOf i)

/-- `LRUIPVRP::currentMRU`: maximum value present in the vector (`0` for an
empty vector). -/
def currentMRU (v : List Nat) : Nat := v.foldl max 0

/-- `LRUIPVRP::promoteToMRU`: every other way whose value exceeds the target's
old value is decremented; the target is set to the old maximum.  (The source
writes the entries in place with a loop that skips `i == way`; the loop body is
order-independent, so it is a pointwise map.  The final `v[way] = mru` is only
defined in the source for `way` in bounds.) -/
def promoteToMRU (v : List Nat) (way : Nat) : List Nat :=
  let old := v.getD way 0
  let mru := currentMRU v
  (List.range v.length).map fun i =>
    if i = way then mru
    else if old < v.getD i 0 then v.getD i 0 - 1 else v.getD i 0

/-- `LRUIPVRP::insertNearLRU`: every other way's value is incremented (wrapping
`uint64_t` arithmetic); the target is set to `0`. -/
def insertNearLRU (v : List Nat) (way : Nat) : List Nat :=
  (List.range v.length).map fun i =>
    if i = way then 0 else (v.getD i 0 + 1) % U64

/-- `LRUIPVRP::ensureSet` (effect on one set's vector): if the vector is
shorter than `numWays`, recreate it at size `numWays`; the subsequent loop
overwrites every slot with the ascending identity, so the result is
`[0, 1, ..., numWays-1]`.  An already-large-enough vector is untouched. -/
def ensureSet (numWays : Nat) (v : List Nat) : List Nat :=
  if v.length < numWays then List.range numWays else v

/-- `mru_count` from the constructor:
`std::max(0, std::min(quantum, (quantum * mruPct) / 100))`, with C `int`
division (truncation toward zero, `Int.tdiv`). -/
def mruCount (quantum : Nat) (mruPct : Int) : Int :=
  max 0 (min (quantum : Int) (((quantum : Int) * mruPct).tdiv 100))

/-- The policy object: configuration plus the `mutable` members `pv`,
`insPos` and `setAges`. -/
structure LRUIPVRP where
  numWays : Nat
  mruPct : Int
  quantum : Nat
  pv : List Nat
  insPos : Nat
  setAges : Nat → List Nat

/-- The constructor `LRUIPVRP::LRUIPVRP`.  `fatal_if (numWays <= 0)` is the
`none` result; `quantum` is clamped up to `1`; `pv` gets `1` in its first
`mru_count` slots and `0` elsewhere; `insPos` starts at `0`; the per-set map
starts empty (every set reads as `[]`). -/
def mkLRUIPVRP (numWays mruPct quantum : Int) : Option LRUIPVRP :=
  if numWays ≤ 0 then none
  else
    let q : Nat := (max 1 quantum).toNat
    some { numWays := numWays.toNat
           mruPct := mruPct
           quantum := q
           pv := (List.range q).map
             (fun (i : Nat) => if (i : Int) < mruCount q mruPct then 1 else 0)
           insPos := 0
           setAges := fun _ => [] }

/-- The map assignment `setAges[set] = v`. -/
def storeSet (f : Nat → List Nat) (set : Nat) (v : List Nat) :
    Nat → List Nat :=
  fun s => if s = set then v else f s

/-- `ensureSet` as a state update of the policy. -/
def LRUIPVRP.ensure (p : LRUIPVRP) (set : Nat) : LRUIPVRP :=
  { p with setAges := storeSet p.setAges set (ensureSet p.numWays (p.setAges set)) }

/-- `LRUIPVRP::invalidate`: record-only mutation; the engine state (a `const`
method that touches none of the mutable members) is returned unchanged. -/
def LRUIPVRP.invalidate (p : LRUIPVRP) (d : IPVReplData) :
    LRUIPVRP × IPVReplData :=
  (p, { d with valid := false, age := 0 })

/-- `LRUIPVRP::touch`: promote the entry's way to MRU in its set's vector and
store the new value into the record's `age`. -/
def LRUIPVRP.touch (p : LRUIPVRP) (d : IPVReplData) :
    LRUIPVRP × IPVReplData :=
  let set := d.set
  let way := d.way
  let p1 := p.ensure set
  let v := promoteToMRU (p1.setAges set) way
  ({ p1 with setAges := storeSet p1.setAges set v },
   { d with age := v.getD way 0, valid := true })

/-- `LRUIPVRP::reset`: consult the IPV schedule at the cursor, advance the
cursor modulo `quantum`, apply the scheduled rule to the entry's way, and store
the resulting value into the record's `age`. -/
def LRUIPVRP.reset (p : LRUIPVRP) (d : IPVReplData) :
    LRUIPVRP × IPVReplData :=
  let set := d.set
  let way := d.way
  let p1 := p.ensure set
  let insertMRU := p1.pv.getD p1.insPos 0 = 1
  let p2 := { p1 with insPos := (p1.insPos + 1) % p1.quantum }
  let v := if insertMRU then promoteToMRU (p2.setAges set) way
           else insertNearLRU (p2.setAges set) way
  ({ p2 with setAges := storeSet p2.setAges set v },
   { d with age := v.getD way 0, valid := true })

/-- Observer for the insertion schedule: the sequence of `insertMRU` decisions
(`pv[insPos] == 1`, the exact condition evaluated inside `reset`) produced by
a run of consecutive `reset` calls, threading the state through `reset`
itself. -/
def resetFlags (p : LRUIPVRP) : List IPVReplData → List Bool
  | [] => []
  | d :: ds => (p.pv.getD p.insPos 0 == 1) :: resetFlags (p.reset d).1 ds

/-- The coordinate-stamping loop at the top of `getVictim`: write `set`/`way`
from the entry into its record and set `valid = true`. -/
def stamp (e : Candidate) : Candidate :=
  { e with data := { e.data with set := e.set, way := e.way, valid := true } }

/-- The warm-start synchronisation loop of `getVictim`: for each candidate
whose way lies in `[0, numWays)`, copy its record's `age` into the vector at
that way.  (The source condition is `w >= 0 && w < numWays` on the `int` cast
of the `uint32_t` way; since `0 < numWays < 2^31`, a way of `2^31` or more
casts negative and is excluded, exactly as `¬ (way < numWays)` excludes it
here.) -/
def syncAges (numWays : Nat) (v : List Nat) (cs : List Candidate) : List Nat :=
  cs.foldl (fun v e => if e.way < numWays then v.set e.way e.data.age else v) v

/-- The selection scan of `getVictim`: walk the candidates, updating the
running minimum whenever `d->age <= min_age` (note: non-strict). -/
def scanMin : List Candidate → Candidate → Nat → Candidate × Nat
  | [], vict, m => (vict, m)
  | e :: rest, vict, m =>
    if e.data.age ≤ m then scanMin rest e e.data.age else scanMin rest vict m

/-- `LRUIPVRP::getVictim`.  `panic_if (candidates.empty())` is the `none`
result.  Otherwise: stamp coordinates into every candidate's record, ensure
the set's vector, synchronise it from the records' ages, normalize it, and
scan for the minimum-age candidate starting from `candidates[0]` with
`min_age = std::numeric_limits<uint64_t>::max()`.  Returns the updated policy
state, the mutated candidate records, and the victim. -/
def LRUIPVRP.getVictim (p : LRUIPVRP) (cands : List Candidate) :
    Option (LRUIPVRP × List Candidate × Candidate) :=
  match cands with
  | [] => none
  | e0 :: rest =>
    let set := e0.set
    let stamped := (e0 :: rest).map stamp
    let p1 := p.ensure set
    let v := normalize (syncAges p1.numWays (p1.setAges set) stamped)
    let p2 := { p1 with setAges := storeSet p1.setAges set v }
    let victim := (scanMin stamped (stamp e0) (U64 - 1)).1
    some (p2, stamped, victim)

/-- A vector "is a dense permutation of `0..n-1`" (`n` being its length). -/
def isDensePerm (v : List Nat) : Prop := v.Perm (List.range v.length)

instance (v : List Nat) : Decidable (isDensePerm v) := by
  unfold isDensePerm; infer_instance

/-! ### Generic list helpers -/

theorem getD_eq_get {v : List Nat} {i : Nat} (h : i < v.length) :
    v.getD i 0 = v[i] := by
  simp [List.getD_eq_getElem?_getD, List.getElem?_eq_getElem h]

theorem toFinset_list_range (n : Nat) :
    (List.range n).toFinset = Finset.range n := by
  ext x
  simp

/-- A duplicate-free list of naturals all below its length is a permutation of
`range`. -/
theorem perm_range_of_nodup {l : List Nat} (hnd : l.Nodup)
    (hlt : ∀ x ∈ l, x < l.length) : l.Perm (List.range l.length) := by
  apply List.perm_of_nodup_nodup_toFinset_eq hnd (List.nodup_range _)
  rw [toFinset_list_range]
  apply Finset.eq_of_subset_of_card_le
  · intro x hx
    exact Finset.mem_range.2 (hlt x (List.mem_toFinset.1 hx))
  · rw [Finset.card_range, List.toFinset_card_of_nodup hnd]

/-! ### Dense-permutation facts -/

theorem isDensePerm_nodup {v : List Nat} (h : isDensePerm v) : v.Nodup :=
  h.nodup_iff.2 (List.nodup_range _)

theorem isDensePerm_getElem_lt {v : List Nat} (h : isDensePerm v) {i : Nat}
    (hi : i < v.length) : v[i] < v.length := by
  have hm : v[i] ∈ v := List.getElem_mem hi
  simpa using h.mem_iff.1 hm

theorem isDensePerm_inj {v : List Nat} (h : isDensePerm v) {i j : Nat}
    (hi : i < v.length) (hj : j < v.length) (he : v[i] = v[j]) : i = j := by
  have hinj := List.nodup_iff_injective_getElem.1 (isDensePerm_nodup h)
  exact congrArg Fin.val (@hinj ⟨i, hi⟩ ⟨j, hj⟩ he)

theorem foldl_max_range (n : Nat) : (List.range n).foldl max 0 = n - 1 := by
  induction n with
  | zero => rfl
  | succ n ih =>
    rw [List.range_succ, List.foldl_append, ih]
    simp only [List.foldl_cons, List.foldl_nil]
    omega

/-- On a dense permutation, `currentMRU` is `length - 1`. -/
theorem currentMRU_densePerm {v : List Nat} (h : isDensePerm v) :
    currentMRU v = v.length - 1 := by
  haveI : RightCommutative (max : Nat → Nat → Nat) :=
    ⟨fun b a₁ a₂ => by omega⟩
  unfold currentMRU
  rw [List.Perm.foldl_eq h 0, foldl_max_range]

/-! ### Rank-update rules: pointwise descriptions -/

theorem length_promoteToMRU (v : List Nat) (way : Nat) :
    (promoteToMRU v way).length = v.length := by
  simp [promoteToMRU]

theorem getElem_promoteToMRU (v : List Nat) (way : Nat) {i : Nat}
    (hi : i < (promoteToMRU v way).length) :
    (promoteToMRU v way)[i] =
      if i = way then currentMRU v
      else if v.getD way 0 < v.getD i 0 then v.getD i 0 - 1 else v.getD i 0 := by
  simp [promoteToMRU]

theorem length_insertNearLRU (v : List Nat) (way : Nat) :
    (insertNearLRU v way).length = v.length := by
  simp [insertNearLRU]

theorem getElem_insertNearLRU (v : List Nat) (way : Nat) {i : Nat}
    (hi : i < (insertNearLRU v way).length) :
    (insertNearLRU v way)[i] =
      if i = way then 0 else (v.getD i 0 + 1) % U64 := by
  simp [insertNearLRU]

/-- `promoteToMRU` keeps a dense permutation dense. -/
theorem promoteToMRU_densePerm {v : List Nat} {way : Nat}
    (hperm : isDensePerm v) (hway : way < v.length) :
    isDensePerm (promoteToMRU v way) := by
  have hn : 0 < v.length := Nat.lt_of_le_of_lt (Nat.zero_le _) hway
  have hlen := length_promoteToMRU v way
  have hwv : v.getD way 0 = v[way] := getD_eq_get hway
  have hway' : v[way] < v.length := isDensePerm_getElem_lt hperm hway
  have hget : ∀ i (hi : i < v.length), (promoteToMRU v way).getD i 0 =
      if i = way then v.length - 1
      else if v[way] < v[i] then v[i] - 1 else v[i] := by
    intro i hi
    rw [getD_eq_get (v := promoteToMRU v way) (by omega),
      getElem_promoteToMRU v way (by omega), currentMRU_densePerm hperm, hwv,
      getD_eq_get hi]
  have hgetw : (promoteToMRU v way).getD way 0 = v.length - 1 := by
    rw [hget way hway, if_pos rfl]
  have hval : ∀ i (hi2 : i < v.length), i ≠ way →
      (v[way] < v[i] ∧ (promoteToMRU v way).getD i 0 = v[i] - 1) ∨
      (v[i] ≤ v[way] ∧ (promoteToMRU v way).getD i 0 = v[i]) := by
    intro i hi' hiw
    rw [hget i hi', if_neg hiw]
    by_cases h : v[way] < v[i]
    · exact Or.inl ⟨h, by rw [if_pos h]⟩
    · exact Or.inr ⟨Nat.le_of_not_lt h, by rw [if_neg h]⟩
  unfold isDensePerm
  apply perm_range_of_nodup
  · rw [List.nodup_iff_injective_getElem]
    rintro ⟨i, hi⟩ ⟨j, hj⟩ hije
    simp only at hije
    have hi' : i < v.length := by omega
    have hj' : j < v.length := by omega
    have hij : (promoteToMRU v way).getD i 0 = (promoteToMRU v way).getD j 0 := by
      rw [getD_eq_get (v := promoteToMRU v way) (i := i) (by omega),
        getD_eq_get (v := promoteToMRU v way) (i := j) (by omega)]
      exact hije
    have hvi : v[i] < v.length := isDensePerm_getElem_lt hperm hi'
    have hvj : v[j] < v.length := isDensePerm_getElem_lt hperm hj'
    apply Fin.ext
    show i = j
    by_cases hiw : i = way <;> by_cases hjw : j = way
    · omega
    · exfalso
      have hne : v[j] ≠ v[way] := fun he => hjw (isDensePerm_inj hperm hj' hway he)
      subst hiw
      rw [hgetw] at hij
      rcases hval j hj' hjw with ⟨h1, h2⟩ | ⟨h1, h2⟩ <;> rw [h2] at hij <;> omega
    · exfalso
      have hne : v[i] ≠ v[way] := fun he => hiw (isDensePerm_inj hperm hi' hway he)
      subst hjw
      rw [hgetw] at hij
      rcases hval i hi' hiw with ⟨h1, h2⟩ | ⟨h1, h2⟩ <;> rw [h2] at hij <;> omega
    · have hnei : v[i] ≠ v[way] := fun he => hiw (isDensePerm_inj hperm hi' hway he)
      have hnej : v[j] ≠ v[way] := fun he => hjw (isDensePerm_inj hperm hj' hway he)
      apply isDensePerm_inj hperm hi' hj'
      rcases hval i hi' hiw with ⟨h1, h2⟩ | ⟨h1, h2⟩ <;>
        rcases hval j hj' hjw with ⟨h3, h4⟩ | ⟨h3, h4⟩ <;>
          rw [h2, h4] at hij <;> omega
  · intro x hx
    rw [hlen]
    obtain ⟨i, hi, rfl⟩ := List.getElem_of_mem hx
    have hi' : i < v.length := by omega
    have hvi : v[i] < v.length := isDensePerm_getElem_lt hperm hi'
    have hx' : (promoteToMRU v way)[i] = (promoteToMRU v way).getD i 0 :=
      (getD_eq_get (v := promoteToMRU v way) (by omega)).symm
    rw [hx']
    by_cases hiw : i = way
    · subst hiw
      rw [hgetw]
      omega
    · rcases hval i hi' hiw with ⟨h1, h2⟩ | ⟨h1, h2⟩ <;> rw [h2] <;> omega

/-- **C4**: for every dense permutation of `0..n-1` and every way index in
`0..n-1`, Promote-to-MRU yields a dense permutation of `0..n-1` in which the
chosen way holds the maximum value `n-1`; every other way whose old value
exceeded the chosen way's old value is decremented by exactly one, and every
way whose old value was at or below it is unchanged. -/
theorem C4_promoteToMRU_shape (v : List Nat) (way : Nat)
    (hperm : isDensePerm v) (hway : way < v.length) :
    isDensePerm (promoteToMRU v way) ∧
    (promoteToMRU v way).getD way 0 = v.length - 1 ∧
    ∀ i, i < v.length → i ≠ way →
      (v.getD way 0 < v.getD i 0 →
        (promoteToMRU v way).getD i 0 = v.getD i 0 - 1) ∧
      (v.getD i 0 ≤ v.getD way 0 →
        (promoteToMRU v way).getD i 0 = v.getD i 0) := by
  have hlen := length_promoteToMRU v way
  refine ⟨promoteToMRU_densePerm hperm hway, ?_, ?_⟩
  · rw [getD_eq_get (by omega), getElem_promoteToMRU v way (by omega),
      if_pos rfl, currentMRU_densePerm hperm]
  · intro i hi hiw
    rw [getD_eq_get (v := promoteToMRU v way) (by omega),
      getElem_promoteToMRU v way (by omega), if_neg hiw]
    constructor
    · intro h
      rw [if_pos h]
    · intro h
      rw [if_neg (by omega)]

/-- Witness for `C4_promoteToMRU_shape` at `v = [0,1,2,3]`, `way = 1`. -/
theorem C4_promoteToMRU_shape_witness :
    isDensePerm (promoteToMRU [0, 1, 2, 3] 1) ∧
    (promoteToMRU [0, 1, 2, 3] 1).getD 1 0 = 3 :=
  ⟨(C4_promoteToMRU_shape [0, 1, 2, 3] 1 (by decide) (by decide)).1,
   (C4_promoteToMRU_shape [0, 1, 2, 3] 1 (by decide) (by decide)).2.1⟩

/-- **C3** is FALSE as stated: `insertNearLRU` on the dense permutation
`[0, 1]` at way `0` gives `[0, 2]`, which is not a dense permutation of
`0..1` (the commented-out `normalize` in the source is what would have
restored density). -/
theorem C3_counterexample :
    isDensePerm [0, 1] ∧ 0 < [0, 1].length ∧
    ¬ isDensePerm (insertNearLRU [0, 1] 0) := by decide

/-- **C3** (amended): for every dense permutation of `0..n-1` (with
`n < 2^64`; `numWays` is a positive C `int`, so this always holds in the
source) and every way index in `0..n-1`, Insert-near-LRU yields a same-length
vector in which the chosen way holds `0` and every other way holds its old
value incremented by one.  The result is in general *not* a dense permutation
of `0..n-1`; density is only restored by the next `normalize`. -/
theorem C3_insertNearLRU_shape (v : List Nat) (way : Nat)
    (hperm : isDensePerm v) (hway : way < v.length) (hsz : v.length < U64) :
    (insertNearLRU v way).length = v.length ∧
    (insertNearLRU v way).getD way 0 = 0 ∧
    ∀ i, i < v.length → i ≠ way →
      (insertNearLRU v way).getD i 0 = v.getD i 0 + 1 := by
  have hlen := length_insertNearLRU v way
  refine ⟨hlen, ?_, ?_⟩
  · rw [getD_eq_get (by omega), getElem_insertNearLRU v way (by omega),
      if_pos rfl]
  · intro i hi hiw
    have hvi : v[i] < v.length := isDensePerm_getElem_lt hperm hi
    rw [getD_eq_get (v := insertNearLRU v way) (by omega),
      getElem_insertNearLRU v way (by omega), if_neg hiw, getD_eq_get hi,
      Nat.mod_eq_of_lt (by omega)]

/-- Witness for `C3_insertNearLRU_shape` at `v = [0,1,2,3]`, `way = 2`. -/
theorem C3_insertNearLRU_shape_witness :
    (insertNearLRU [0, 1, 2, 3] 2).getD 2 0 = 0 ∧
    (insertNearLRU [0, 1, 2, 3] 2).length = 4 :=
  ⟨(C3_insertNearLRU_shape [0, 1, 2, 3] 2 (by decide) (by decide)
      (by decide)).2.1,
   (C3_insertNearLRU_shape [0, 1, 2, 3] 2 (by decide) (by decide)
      (by decide)).1⟩

/-! ### `normalize`: stable relabelling -/

theorem sublist_pair_range {i j : Nat} (hij : i < j) :
    ∀ {n : Nat}, j < n → List.Sublist [i, j] (List.range n) := by
  intro n
  induction n with
  | zero => intro h; omega
  | succ n ih =>
    intro h
    rw [List.range_succ]
    by_cases hjn : j < n
    · exact (ih hjn).trans (List.sublist_append_left _ _)
    · have hje : j = n := by omega
      subst hje
      exact List.Sublist.append
        (List.singleton_sublist.2 (List.mem_range.2 hij)) (List.Sublist.refl [j])

theorem indexOf_lt_of_pair_sublist {l : List Nat} (hnd : l.Nodup) {a b : Nat}
    (h : List.Sublist [a, b] l) : l.indexOf a < l.indexOf b := by
  induction l with
  | nil => simp at h
  | cons x t ih =>
    cases h with
    | cons _ h' =>
      have hat : a ∈ t := h'.subset (by simp)
      have hbt : b ∈ t := h'.subset (by simp)
      have hx : x ∉ t := (List.nodup_cons.1 hnd).1
      rw [List.indexOf_cons_ne _ (fun he => hx (by rw [he]; exact hat)),
        List.indexOf_cons_ne _ (fun he => hx (by rw [he]; exact hbt))]
      exact Nat.succ_lt_succ (ih (List.nodup_cons.1 hnd).2 h')
    | cons₂ _ h' =>
      have hbt : b ∈ t := List.singleton_sublist.1 h'
      have hx : a ∉ t := (List.nodup_cons.1 hnd).1
      rw [List.indexOf_cons_self,
        List.indexOf_cons_ne _ (fun he => hx (by rw [he]; exact hbt))]
      exact Nat.succ_pos _

theorem indexOf_getElem_self {l : List Nat} (hnd : l.Nodup) {k : Nat}
    (hk : k < l.length) : l.indexOf l[k] = k := by
  have hmem : l[k] ∈ l := List.getElem_mem hk
  have hlt : l.indexOf l[k] < l.length := List.indexOf_lt_length.2 hmem
  have hget : l.get ⟨l.indexOf l[k], hlt⟩ = l[k] := List.indexOf_get hlt
  have hinj := List.nodup_iff_injective_get.1 hnd
  exact congrArg Fin.val
    (@hinj ⟨l.indexOf l[k], hlt⟩ ⟨k, hk⟩ (by rw [hget]; rfl))

theorem sortIdx_perm (v : List Nat) :
    (sortIdx v).Perm (List.range v.length) :=
  List.perm_insertionSort _ _

theorem sortIdx_length (v : List Nat) : (sortIdx v).length = v.length := by
  rw [(sortIdx_perm v).length_eq, List.length_range]

theorem sortIdx_nodup (v : List Nat) : (sortIdx v).Nodup :=
  (sortIdx_perm v).nodup_iff.2 (List.nodup_range _)

theorem sortIdx_sorted (v : List Nat) :
    (sortIdx v).Pairwise (fun a b => v.getD a 0 ≤ v.getD b 0) := by
  haveI : IsTotal Nat (fun a b => v.getD a 0 ≤ v.getD b 0) :=
    ⟨fun a b => Nat.le_total _ _⟩
  haveI : IsTrans Nat (fun a b => v.getD a 0 ≤ v.getD b 0) :=
    ⟨fun a b c hab hbc => Nat.le_trans hab hbc⟩
  exact List.sorted_insertionSort _ _

theorem sortIdx_mem {v : List Nat} {i : Nat} (hi : i < v.length) :
    i ∈ sortIdx v :=
  ((sortIdx_perm v).mem_iff).2 (List.mem_range.2 hi)

theorem length_normalize (v : List Nat) : (normalize v).length = v.length := by
  simp [normalize]

theorem getElem_normalize (v : List Nat) {i : Nat}
    (hi : i < (normalize v).length) :
    (normalize v)[i] = (sortIdx v).indexOf i := by
  simp [normalize]

/-- `normalize` always produces a dense permutation of `0..size-1`. -/
theorem normalize_densePerm (v : List Nat) : isDensePerm (normalize v) := by
  unfold isDensePerm
  rw [length_normalize]
  have hmap : (sortIdx v).map (fun a => (sortIdx v).indexOf a)
      = List.range v.length := by
    apply List.ext_getElem
    · simp [sortIdx_length]
    · intro k h1 h2
      simp only [List.getElem_map, List.getElem_range]
      exact indexOf_getElem_self (sortIdx_nodup v) _
  show (List.range v.length).map (fun i => (sortIdx v).indexOf i)
    |>.Perm (List.range v.length)
  refine (List.Perm.map (fun i => (sortIdx v).indexOf i)
    (sortIdx_perm v).symm).trans ?_
  rw [hmap]

/-- Order consistency: a strictly smaller stored value ends up at a strictly
smaller relabelled rank. -/
theorem normalize_lt_of_lt (v : List Nat) {i j : Nat} (hi : i < v.length)
    (hj : j < v.length) (hv : v.getD i 0 < v.getD j 0) :
    (sortIdx v).indexOf i < (sortIdx v).indexOf j := by
  have hlti : (sortIdx v).indexOf i < (sortIdx v).length :=
    List.indexOf_lt_length.2 (sortIdx_mem hi)
  have hltj : (sortIdx v).indexOf j < (sortIdx v).length :=
    List.indexOf_lt_length.2 (sortIdx_mem hj)
  have hgi : (sortIdx v).get ⟨_, hlti⟩ = i := List.indexOf_get hlti
  have hgj : (sortIdx v).get ⟨_, hltj⟩ = j := List.indexOf_get hltj
  rcases Nat.lt_trichotomy ((sortIdx v).indexOf i) ((sortIdx v).indexOf j)
    with h | h | h
  · exact h
  · exfalso
    have hij : i = j := by rw [← hgi, ← hgj]; congr 1; exact Fin.ext h
    subst hij
    exact Nat.lt_irrefl _ hv
  · exfalso
    have hpair := List.pairwise_iff_getElem.1 (sortIdx_sorted v) _ _ hltj hlti h
    rw [show (sortIdx v)[(sortIdx v).indexOf j] = j from hgj,
      show (sortIdx v)[(sortIdx v).indexOf i] = i from hgi] at hpair
    omega

/-- Stability: among equal stored values, the smaller index ends up at the
smaller relabelled rank. -/
theorem normalize_lt_of_eq (v : List Nat) {i j : Nat} (hij : i < j)
    (hj : j < v.length) (hv : v.getD i 0 = v.getD j 0) :
    (sortIdx v).indexOf i < (sortIdx v).indexOf j := by
  apply indexOf_lt_of_pair_sublist (sortIdx_nodup v)
  unfold sortIdx
  exact List.sublist_insertionSort (List.pairwise_pair.2 (le_of_eq hv))
    (sublist_pair_range hij hj)

/-- **C7**: `normalize` relabels the vector so that the values are exactly
`0..size-1`, strictly smaller old values receive strictly smaller new values,
and among equal old values the smaller index receives the smaller new value
(stable sort). -/
theorem C7_normalize_spec (v : List Nat) :
    isDensePerm (normalize v) ∧ (normalize v).length = v.length ∧
    (∀ i j, i < v.length → j < v.length → v.getD i 0 < v.getD j 0 →
      (normalize v).getD i 0 < (normalize v).getD j 0) ∧
    (∀ i j, i < j → j < v.length → v.getD i 0 = v.getD j 0 →
      (normalize v).getD i 0 < (normalize v).getD j 0) := by
  refine ⟨normalize_densePerm v, length_normalize v, ?_, ?_⟩
  · intro i j hi hj hv
    rw [getD_eq_get (v := normalize v) (i := i) (by rw [length_normalize]; omega),
      getD_eq_get (v := normalize v) (i := j) (by rw [length_normalize]; omega),
      getElem_normalize v _, getElem_normalize v _]
    exact normalize_lt_of_lt v hi hj hv
  · intro i j hij hj hv
    rw [getD_eq_get (v := normalize v) (i := i) (by rw [length_normalize]; omega),
      getD_eq_get (v := normalize v) (i := j) (by rw [length_normalize]; omega),
      getElem_normalize v _, getElem_normalize v _]
    exact normalize_lt_of_eq v hij hj hv

/-- Witness for `C7_normalize_spec` at `v = [5, 2, 2]`. -/
theorem C7_normalize_spec_witness :
    isDensePerm (normalize [5, 2, 2]) ∧
    (normalize [5, 2, 2]).length = 3 ∧
    (normalize [5, 2, 2]).getD 1 0 < (normalize [5, 2, 2]).getD 2 0 :=
  ⟨(C7_normalize_spec [5, 2, 2]).1,
   (C7_normalize_spec [5, 2, 2]).2.1,
   (C7_normalize_spec [5, 2, 2]).2.2.2 1 2 (by decide) (by decide) (by decide)⟩

/-! ### `getVictim`: the permutation invariant (C5) -/

theorem storeSet_self (f : Nat → List Nat) (set : Nat) (v : List Nat) :
    storeSet f set v set = v := if_pos rfl

theorem storeSet_other (f : Nat → List Nat) (set : Nat) (v : List Nat)
    {s : Nat} (h : s ≠ set) : storeSet f set v s = f s := if_neg h

theorem syncAges_length (nw : Nat) (v : List Nat) (cs : List Candidate) :
    (syncAges nw v cs).length = v.length := by
  induction cs generalizing v with
  | nil => rfl
  | cons e cs ih =>
    show (syncAges nw (if e.way < nw then v.set e.way e.data.age else v)
      cs).length = v.length
    rw [ih]
    split <;> simp

theorem ensureSet_length_of_le {nw : Nat} {v : List Nat} (h : v.length ≤ nw) :
    (ensureSet nw v).length = nw := by
  unfold ensureSet
  split
  · simp
  · omega

/-- **C5**: for every set and every `getVictim` call with a non-empty
candidate list for that set — whatever ages the candidates carry and whatever
(reachable) state the set's vector was in beforehand, i.e. absent (`[]`) or of
length at most `numWays` — immediately after the call the set's Age Table
vector holds exactly the values `{0, …, numWays-1}`, each exactly once. -/
theorem C5_getVictim_perm (p : LRUIPVRP) (c0 : Candidate)
    (rest : List Candidate)
    (hlen : (p.setAges c0.set).length ≤ p.numWays) :
    ∃ r, p.getVictim (c0 :: rest) = some r ∧
      (r.1.setAges c0.set).Perm (List.range p.numWays) := by
  refine ⟨_, rfl, ?_⟩
  show (storeSet (p.ensure c0.set).setAges c0.set
      (normalize (syncAges (p.ensure c0.set).numWays
        ((p.ensure c0.set).setAges c0.set)
        ((c0 :: rest).map stamp))) c0.set).Perm (List.range p.numWays)
  rw [storeSet_self]
  have hens : (p.ensure c0.set).setAges c0.set
      = ensureSet p.numWays (p.setAges c0.set) := storeSet_self _ _ _
  have hd := normalize_densePerm (syncAges (p.ensure c0.set).numWays
    ((p.ensure c0.set).setAges c0.set) ((c0 :: rest).map stamp))
  unfold isDensePerm at hd
  rw [length_normalize, syncAges_length, hens,
    ensureSet_length_of_le hlen] at hd
  rwa [hens]

/-- Witness for `C5_getVictim_perm`: one candidate, empty prior state. -/
theorem C5_getVictim_perm_witness :
    ∃ r, LRUIPVRP.getVictim
        { numWays := 4, mruPct := 50, quantum := 2, pv := [1, 0], insPos := 0,
          setAges := fun _ => [] }
        [{ set := 0, way := 0, data := { age := 7, valid := true, set := 0, way := 0 } }] = some r ∧
      (r.1.setAges 0).Perm (List.range 4) :=
  C5_getVictim_perm
    { numWays := 4, mruPct := 50, quantum := 2, pv := [1, 0], insPos := 0,
      setAges := fun _ => [] }
    { set := 0, way := 0, data := { age := 7, valid := true, set := 0, way := 0 } }
    [] (by decide)

/-! ### `getVictim`: the minimum-age scan (C1) -/

theorem stamp_age (e : Candidate) : (stamp e).data.age = e.data.age := rfl

/-- Full characterisation of the selection scan: either no candidate ever
passes the `≤` test (all ages exceed the running minimum), or the scan returns
the last candidate holding the minimum age: every candidate after it is
strictly larger. -/
theorem scanMin_spec (l : List Candidate) (vict : Candidate) (m : Nat) :
    ((∀ e ∈ l, m < e.data.age) ∧ (scanMin l vict m).1 = vict) ∨
    (∃ l₁ l₂, l = l₁ ++ (scanMin l vict m).1 :: l₂ ∧
      (scanMin l vict m).1.data.age ≤ m ∧
      (∀ e ∈ l, (scanMin l vict m).1.data.age ≤ e.data.age) ∧
      (∀ e ∈ l₂, (scanMin l vict m).1.data.age < e.data.age)) := by
  induction l generalizing vict m with
  | nil => exact Or.inl ⟨fun e he => absurd he (List.not_mem_nil e), rfl⟩
  | cons e rest ih =>
    by_cases h : e.data.age ≤ m
    · have hstep : scanMin (e :: rest) vict m
          = if e.data.age ≤ m then scanMin rest e e.data.age
            else scanMin rest vict m := rfl
      rw [hstep, if_pos h]
      rcases ih e e.data.age with ⟨hall, hv⟩ | ⟨l₁, l₂, heq, hle, hmin, hpost⟩
      · right
        refine ⟨[], rest, ?_, ?_, ?_, ?_⟩
        · rw [hv]
          rfl
        · rw [hv]
          exact h
        · intro x hx
          rw [hv]
          rcases List.mem_cons.1 hx with rfl | hx'
          · exact Nat.le_refl _
          · exact Nat.le_of_lt (hall x hx')
        · intro x hx
          rw [hv]
          exact hall x hx
      · right
        refine ⟨e :: l₁, l₂, ?_, Nat.le_trans hle h, ?_, hpost⟩
        · rw [List.cons_append, ← heq]
        · intro x hx
          rcases List.mem_cons.1 hx with rfl | hx'
          · exact hle
          · exact hmin x hx'
    · have hm : m < e.data.age := Nat.lt_of_not_le h
      have hstep : scanMin (e :: rest) vict m
          = if e.data.age ≤ m then scanMin rest e e.data.age
            else scanMin rest vict m := rfl
      rw [hstep, if_neg h]
      rcases ih vict m with ⟨hall, hv⟩ | ⟨l₁, l₂, heq, hle, hmin, hpost⟩
      · refine Or.inl ⟨?_, hv⟩
        intro x hx
        rcases List.mem_cons.1 hx with rfl | hx'
        · exact hm
        · exact hall x hx'
      · right
        refine ⟨e :: l₁, l₂, ?_, hle, ?_, hpost⟩
        · rw [List.cons_append, ← heq]
        · intro x hx
          rcases List.mem_cons.1 hx with rfl | hx'
          · omega
          · exact hmin x hx'

/-- **C1**: for every non-empty candidate list (with `uint64_t` ages), the
victim returned by `getVictim` holds a stored age that is ≤ every other
candidate's stored age, and it is the *last* candidate in iteration order
holding that minimum: every later candidate has a strictly larger age. -/
theorem C1_getVictim_min_last (p : LRUIPVRP) (cands : List Candidate)
    (hne : cands ≠ []) (hages : ∀ e ∈ cands, e.data.age < U64) :
    ∃ l₁ c l₂ r,
      cands = l₁ ++ c :: l₂ ∧
      p.getVictim cands = some r ∧
      r.2.2 = stamp c ∧
      (∀ e ∈ cands, c.data.age ≤ e.data.age) ∧
      (∀ e ∈ l₂, c.data.age < e.data.age) := by
  match cands, hne with
  | c0 :: rest, _ =>
    rcases scanMin_spec ((c0 :: rest).map stamp) (stamp c0) (U64 - 1) with
      ⟨hall, _⟩ | ⟨L₁, L₂, heq, hle, hmin, hpost⟩
    · exfalso
      have h0 : stamp c0 ∈ (c0 :: rest).map stamp :=
        List.mem_map_of_mem stamp (List.mem_cons_self c0 rest)
      have h1 := hall (stamp c0) h0
      have h2 := hages c0 (List.mem_cons_self c0 rest)
      rw [stamp_age] at h1
      unfold U64 at h1 h2
      omega
    · obtain ⟨m₁, m₂, hsplit, hm₁, hm₂⟩ := List.map_eq_append_iff.1 heq
      obtain ⟨c, m₂', hsplit₂, hc, hm₂'⟩ := List.map_eq_cons_iff.1 hm₂
      subst hsplit₂
      refine ⟨m₁, c, m₂', _, hsplit, rfl, hc.symm, ?_, ?_⟩
      · intro e he
        have hm := hmin (stamp e) (List.mem_map_of_mem stamp he)
        rw [← hc, stamp_age, stamp_age] at hm
        exact hm
      · intro e he
        have hmem : stamp e ∈ L₂ := by
          rw [← hm₂']
          exact List.mem_map_of_mem stamp he
        have hp := hpost (stamp e) hmem
        rw [← hc, stamp_age, stamp_age] at hp
        exact hp

/-- Witness for `C1_getVictim_min_last`: ties on age 3 resolve to the later
candidate (way 2), which has age ≤ both others. -/
theorem C1_getVictim_min_last_witness :
    ∃ l₁ c l₂ r,
      [⟨0, 0, ⟨3, true, 0, 0⟩⟩, ⟨0, 1, ⟨5, true, 0, 0⟩⟩,
        (⟨0, 2, ⟨3, true, 0, 0⟩⟩ : Candidate)] = l₁ ++ c :: l₂ ∧
      LRUIPVRP.getVictim
        { numWays := 4, mruPct := 50, quantum := 2, pv := [1, 0], insPos := 0,
          setAges := fun _ => [] }
        [⟨0, 0, ⟨3, true, 0, 0⟩⟩, ⟨0, 1, ⟨5, true, 0, 0⟩⟩,
          ⟨0, 2, ⟨3, true, 0, 0⟩⟩] = some r ∧
      r.2.2 = stamp c ∧
      (∀ e ∈ [⟨0, 0, ⟨3, true, 0, 0⟩⟩, ⟨0, 1, ⟨5, true, 0, 0⟩⟩,
        (⟨0, 2, ⟨3, true, 0, 0⟩⟩ : Candidate)], c.data.age ≤ e.data.age) ∧
      (∀ e ∈ l₂, c.data.age < e.data.age) :=
  C1_getVictim_min_last
    { numWays := 4, mruPct := 50, quantum := 2, pv := [1, 0], insPos := 0,
      setAges := fun _ => [] }
    [⟨0, 0, ⟨3, true, 0, 0⟩⟩, ⟨0, 1, ⟨5, true, 0, 0⟩⟩, ⟨0, 2, ⟨3, true, 0, 0⟩⟩]
    (by decide) (by decide)

/-! ### Frame effects (C2, C9) and out-of-range ways (C10) -/

/-- **C2** is FALSE as stated: `getVictim` *does* modify every candidate
record's `valid` field — the stamping loop executes `d->valid = true`.  Here a
candidate enters the call with `valid = false` and leaves it with
`valid = true`. -/
theorem C2_counterexample :
    (⟨0, 0, ⟨5, false, 0, 0⟩⟩ : Candidate).data.valid = false ∧
    (LRUIPVRP.getVictim
        { numWays := 2, mruPct := 50, quantum := 2, pv := [1, 0], insPos := 0,
          setAges := fun _ => [] }
        [⟨0, 0, ⟨5, false, 0, 0⟩⟩]).map
      (fun r => r.2.1.map (fun e => e.data.valid)) = some [true] :=
  ⟨rfl, rfl⟩

/-- **C2** (amended): for every `getVictim` call with a non-empty candidate
list, no candidate record's `age` is modified; the call writes the records'
`set`/`way` coordinates and sets every record's `valid` to `true` (in addition
to the engine's internal Age Table); the remaining engine state (`numWays`,
`mruPct`, `quantum`, `pv`, `insPos`) is untouched. -/
theorem C2_getVictim_frame (p : LRUIPVRP) (cands : List Candidate)
    (hne : cands ≠ []) :
    ∃ r, p.getVictim cands = some r ∧
      r.2.1 = cands.map stamp ∧
      (∀ e ∈ cands, (stamp e).data.age = e.data.age ∧
        (stamp e).data.valid = true ∧
        (stamp e).data.set = e.set ∧ (stamp e).data.way = e.way) ∧
      r.1.numWays = p.numWays ∧ r.1.mruPct = p.mruPct ∧
      r.1.quantum = p.quantum ∧ r.1.pv = p.pv ∧ r.1.insPos = p.insPos := by
  match cands, hne with
  | c0 :: rest, _ =>
    exact ⟨_, rfl, rfl, fun e _ => ⟨rfl, rfl, rfl, rfl⟩, rfl, rfl, rfl, rfl, rfl⟩

/-- Witness for `C2_getVictim_frame`: a one-candidate call. -/
theorem C2_getVictim_frame_witness :
    ∃ r, LRUIPVRP.getVictim
        { numWays := 2, mruPct := 50, quantum := 2, pv := [1, 0], insPos := 0,
          setAges := fun _ => [] }
        [⟨0, 1, ⟨9, false, 3, 3⟩⟩] = some r ∧
      r.2.1 = [⟨0, 1, ⟨9, false, 3, 3⟩⟩].map stamp ∧
      (∀ e ∈ [(⟨0, 1, ⟨9, false, 3, 3⟩⟩ : Candidate)],
        (stamp e).data.age = e.data.age ∧ (stamp e).data.valid = true ∧
        (stamp e).data.set = e.set ∧ (stamp e).data.way = e.way) ∧
      r.1.numWays = 2 ∧ r.1.mruPct = 50 ∧ r.1.quantum = 2 ∧
      r.1.pv = [1, 0] ∧ r.1.insPos = 0 :=
  C2_getVictim_frame
    { numWays := 2, mruPct := 50, quantum := 2, pv := [1, 0], insPos := 0,
      setAges := fun _ => [] }
    [⟨0, 1, ⟨9, false, 3, 3⟩⟩] (by decide)

/-- **C9**: `invalidate` sets the record's `valid` to `false` and its `age` to
`0`, leaves the record's `set`/`way` coordinates untouched, and leaves the
whole engine state (Age Table vectors and scheduler cursor) unchanged. -/
theorem C9_invalidate_frame (p : LRUIPVRP) (d : IPVReplData) :
    (p.invalidate d).1 = p ∧
    (p.invalidate d).2.valid = false ∧
    (p.invalidate d).2.age = 0 ∧
    (p.invalidate d).2.set = d.set ∧
    (p.invalidate d).2.way = d.way :=
  ⟨rfl, rfl, rfl, rfl, rfl⟩

theorem syncAges_filter (nw : Nat) (v : List Nat) (cs : List Candidate) :
    syncAges nw v cs
      = syncAges nw v (cs.filter (fun e => decide (e.way < nw))) := by
  induction cs generalizing v with
  | nil => rfl
  | cons e cs ih =>
    show syncAges nw (if e.way < nw then v.set e.way e.data.age else v) cs = _
    by_cases h : e.way < nw
    · rw [if_pos h]
      have hf : (e :: cs).filter (fun e => decide (e.way < nw))
          = e :: cs.filter (fun e => decide (e.way < nw)) := by
        simp [List.filter_cons, h]
      rw [hf]
      show _ = syncAges nw (if e.way < nw then v.set e.way e.data.age else v)
        (cs.filter (fun e => decide (e.way < nw)))
      rw [if_pos h]
      exact ih _
    · rw [if_neg h]
      have hf : (e :: cs).filter (fun e => decide (e.way < nw))
          = cs.filter (fun e => decide (e.way < nw)) := by
        simp [List.filter_cons, h]
      rw [hf]
      exact ih v

theorem syncAges_getD_ge (nw : Nat) (v : List Nat) (cs : List Candidate)
    {j : Nat} (hj : nw ≤ j) :
    (syncAges nw v cs).getD j 0 = v.getD j 0 := by
  induction cs generalizing v with
  | nil => rfl
  | cons e cs ih =>
    show (syncAges nw
      (if e.way < nw then v.set e.way e.data.age else v) cs).getD j 0 = _
    rw [ih]
    split
    · next h =>
      rw [List.getD_eq_getElem?_getD, List.getD_eq_getElem?_getD,
        List.getElem?_set_ne (by omega)]
    · rfl

/-- **C10**: in the age-synchronisation loop of `getVictim`, a candidate whose
way is outside `0..numWays-1` is skipped — syncing equals syncing over only
the in-range candidates, slots are never written past `numWays`, and the
vector length never changes — yet such a candidate remains eligible in the
final scan: in the concrete call below the way-7 candidate (numWays = 4) is
returned as the victim. -/
theorem C10_sync_skips_oob :
    (∀ (nw : Nat) (v : List Nat) (cs : List Candidate),
      syncAges nw v cs
        = syncAges nw v (cs.filter (fun e => decide (e.way < nw)))) ∧
    (∀ (nw : Nat) (v : List Nat) (cs : List Candidate) (j : Nat), nw ≤ j →
      (syncAges nw v cs).getD j 0 = v.getD j 0) ∧
    (∀ (nw : Nat) (v : List Nat) (cs : List Candidate),
      (syncAges nw v cs).length = v.length) ∧
    (∃ r, LRUIPVRP.getVictim
        { numWays := 4, mruPct := 50, quantum := 2, pv := [1, 0], insPos := 0,
          setAges := fun _ => [] }
        [⟨0, 0, ⟨5, true, 0, 0⟩⟩, ⟨0, 7, ⟨1, true, 0, 0⟩⟩] = some r ∧
      r.2.2 = stamp ⟨0, 7, ⟨1, true, 0, 0⟩⟩ ∧
      4 ≤ (⟨0, 7, ⟨1, true, 0, 0⟩⟩ : Candidate).way) :=
  ⟨syncAges_filter, fun nw v cs j hj => syncAges_getD_ge nw v cs hj,
   syncAges_length, _, rfl, by decide, by decide⟩

/-- Witness for `C10_sync_skips_oob`: an untouched slot beyond `numWays`. -/
theorem C10_sync_skips_oob_witness :
    (syncAges 2 [7, 8, 9] [⟨0, 5, ⟨1, true, 0, 0⟩⟩]).getD 2 0
      = [7, 8, 9].getD 2 0 :=
  C10_sync_skips_oob.2.1 2 [7, 8, 9] [⟨0, 5, ⟨1, true, 0, 0⟩⟩] 2 (by decide)

/-! ### Error handling (C8) -/

/-- **C8**: exactly two inputs are fatal — constructing with `numWays ≤ 0`
(and nothing else: construction succeeds iff `numWays > 0`, with non-positive
`quantum` clamped up to `1` and `mruPct` clamped inside `mru_count`) and
calling `getVictim` on an empty candidate list (and no other candidate list);
undersized or absent per-set vectors are lazily repaired by `ensureSet`
(`touch`, `reset`, `invalidate` are total functions of the model). -/
theorem C8_error_paths :
    (∀ nw mp q : Int, mkLRUIPVRP nw mp q = none ↔ nw ≤ 0) ∧
    (∀ (p : LRUIPVRP) (cs : List Candidate), p.getVictim cs = none ↔ cs = []) ∧
    (∀ (nw mp q : Int) (pol : LRUIPVRP), mkLRUIPVRP nw mp q = some pol →
      pol.quantum = (max 1 q).toNat ∧ 0 < pol.quantum ∧
      pol.pv.length = pol.quantum) ∧
    (∀ (nw : Nat) (v : List Nat), (ensureSet nw v).length = max nw v.length) := by
  refine ⟨?_, ?_, ?_, ?_⟩
  · intro nw mp q
    unfold mkLRUIPVRP
    split <;> simp_all
  · intro p cs
    cases cs with
    | nil => simp [LRUIPVRP.getVictim]
    | cons c cs => simp [LRUIPVRP.getVictim]
  · intro nw mp q pol h
    unfold mkLRUIPVRP at h
    split at h
    · exact absurd h (by simp)
    · injection h with h
      subst h
      have h1 : (1 : Int) ≤ max 1 q := le_max_left 1 q
      have h2 : (0 : Int) < max 1 q := lt_of_lt_of_le zero_lt_one h1
      have h3 : ((max 1 q).toNat : Int) = max 1 q :=
        Int.toNat_of_nonneg (le_of_lt h2)
      refine ⟨rfl, by rw [← h3] at h2; exact_mod_cast h2,
        by rw [List.length_map, List.length_range]⟩
  · intro nw v
    unfold ensureSet
    split
    · next h =>
      rw [List.length_range]
      omega
    · next h => omega

/-- Witness for `C8_error_paths`: the two fatal inputs and one repair. -/
theorem C8_error_paths_witness :
    mkLRUIPVRP 0 50 4 = none ∧
    LRUIPVRP.getVictim
      { numWays := 1, mruPct := 0, quantum := 1, pv := [0], insPos := 0,
        setAges := fun _ => [] } [] = none ∧
    (ensureSet 3 []).length = max 3 ([] : List Nat).length :=
  ⟨(C8_error_paths.1 0 50 4).mpr (by decide),
   (C8_error_paths.2.1 _ []).mpr rfl,
   C8_error_paths.2.2.2 3 []⟩

/-! ### The insertion scheduler (C6) -/

theorem reset_insPos (p : LRUIPVRP) (d : IPVReplData) :
    (p.reset d).1.insPos = (p.insPos + 1) % p.quantum := rfl

theorem reset_pv (p : LRUIPVRP) (d : IPVReplData) :
    (p.reset d).1.pv = p.pv := rfl

theorem reset_quantum (p : LRUIPVRP) (d : IPVReplData) :
    (p.reset d).1.quantum = p.quantum := rfl

/-- The flag sequence of consecutive `reset` calls only depends on the cursor,
the pattern and the period: call `i` consults `pv[(insPos + i) % quantum]`. -/
theorem resetFlags_eq (ds : List IPVReplData) :
    ∀ (p : LRUIPVRP), p.insPos < p.quantum →
    resetFlags p ds = (List.range ds.length).map
      (fun i => p.pv.getD ((p.insPos + i) % p.quantum) 0 == 1) := by
  induction ds with
  | nil =>
    intro p hc
    rfl
  | cons d ds ih =>
    intro p hc
    have hq : 0 < p.quantum := Nat.lt_of_le_of_lt (Nat.zero_le _) hc
    have hc' : (p.reset d).1.insPos < (p.reset d).1.quantum := by
      rw [reset_insPos, reset_quantum]
      exact Nat.mod_lt _ hq
    show (p.pv.getD p.insPos 0 == 1) :: resetFlags (p.reset d).1 ds = _
    rw [ih (p.reset d).1 hc']
    rw [List.length_cons, List.range_succ_eq_map, List.map_cons, List.map_map]
    congr 1
    · rw [Nat.add_zero, Nat.mod_eq_of_lt hc]
    · apply List.map_congr_left
      intro i hi
      show (p.pv.getD (((p.insPos + 1) % p.quantum + i) % p.quantum) 0 == 1)
        = (p.pv.getD ((p.insPos + (i + 1)) % p.quantum) 0 == 1)
      rw [Nat.mod_add_mod]
      have ha : p.insPos + 1 + i = p.insPos + (i + 1) := by omega
      rw [ha]

theorem map_add_mod_range (q c : Nat) (hc : c < q) :
    (List.range q).map (fun i => (c + i) % q) = (List.range q).rotate c := by
  apply List.ext_getElem
  · simp
  · intro k h1 h2
    rw [List.getElem_map, List.getElem_range, List.getElem_rotate]
    simp only [List.length_range, List.getElem_range]
    rw [Nat.add_comm]

theorem countP_lt_range (mc q : Nat) (h : mc ≤ q) :
    (List.range q).countP (fun j => decide (j < mc)) = mc := by
  induction q with
  | zero =>
    have h0 : mc = 0 := by omega
    subst h0
    rfl
  | succ q ih =>
    rw [List.range_succ, List.countP_append]
    by_cases hm : mc ≤ q
    · have h0 : List.countP (fun j => decide (j < mc)) [q] = 0 := by
        simp [List.countP_cons, Nat.not_lt.2 hm]
      rw [ih hm, h0]
      omega
    · have hmq : mc = q + 1 := by omega
      subst hmq
      have h1 : (List.range q).countP (fun j => decide (j < q + 1))
          = (List.range q).length :=
        List.countP_eq_length.2 (by
          intro a ha
          rw [List.mem_range] at ha
          simp only [decide_eq_true_eq]
          omega)
      have h2 : List.countP (fun j => decide (j < q + 1)) [q] = 1 := by
        simp
      rw [h1, h2, List.length_range]

theorem pv_getD (q : Nat) (M : Int) {j : Nat} (hj : j < q) :
    ((List.range q).map
      (fun (i : Nat) => if (i : Int) < M then 1 else 0)).getD j 0
      = if (j : Int) < M then 1 else 0 := by
  rw [getD_eq_get (by simpa using hj), List.getElem_map, List.getElem_range]

/-- Across a window of exactly `quantum` consecutive `reset` calls starting at
any in-range cursor, the number of MRU-treated fills is exactly the number of
`1` entries of the pattern. -/
theorem resetFlags_count (p : LRUIPVRP) (M : Int)
    (hc : p.insPos < p.quantum)
    (hpv : p.pv = (List.range p.quantum).map
      (fun (i : Nat) => if (i : Int) < M then 1 else 0))
    (hM0 : 0 ≤ M) (hMq : M ≤ (p.quantum : Int))
    (ds : List IPVReplData) (hlen : ds.length = p.quantum) :
    (resetFlags p ds).count true = M.toNat := by
  have hq : 0 < p.quantum := Nat.lt_of_le_of_lt (Nat.zero_le _) hc
  have hmc : M.toNat ≤ p.quantum := by omega
  rw [resetFlags_eq ds p hc, hlen]
  have hmapeq : (List.range p.quantum).map
      (fun i => p.pv.getD ((p.insPos + i) % p.quantum) 0 == 1)
      = (List.range p.quantum).map
        (fun i => decide ((p.insPos + i) % p.quantum < M.toNat)) := by
    apply List.map_congr_left
    intro x hx
    have hxq : (p.insPos + x) % p.quantum < p.quantum := Nat.mod_lt _ hq
    show (p.pv.getD ((p.insPos + x) % p.quantum) 0 == 1)
      = decide ((p.insPos + x) % p.quantum < M.toNat)
    rw [hpv, pv_getD _ _ hxq]
    by_cases h : (((p.insPos + x) % p.quantum : Nat) : Int) < M
    · rw [if_pos h]
      have hn : (p.insPos + x) % p.quantum < M.toNat := Int.lt_toNat.2 h
      simp [hn]
    · rw [if_neg h]
      have hn : ¬ (p.insPos + x) % p.quantum < M.toNat :=
        fun hlt => h (Int.lt_toNat.1 hlt)
      simp [hn]
  rw [hmapeq]
  have hcomp : (List.range p.quantum).map
      (fun i => decide ((p.insPos + i) % p.quantum < M.toNat))
      = ((List.range p.quantum).map
          (fun i => (p.insPos + i) % p.quantum)).map
        (fun j => decide (j < M.toNat)) := by
    rw [List.map_map]
    rfl
  rw [hcomp, map_add_mod_range _ _ hc, List.count_eq_countP, List.countP_map]
  have hpost : ((fun b => b == true) ∘ fun j => decide (j < M.toNat))
      = fun j => decide (j < M.toNat) := by
    funext j
    simp
  rw [hpost, ((List.range p.quantum).rotate_perm p.insPos).countP_eq]
  exact countP_lt_range _ _ hmc

/-- **C6**: for every construction, exactly the first
`clamp((quantum*mruPct)/100, 0, quantum)` slots of the length-`quantum`
pattern are MRU; the cursor is shared across sets (`reset` advances it by one
modulo `quantum` whatever record/set it is given); and across any window of
exactly `quantum` consecutive `reset` calls the number of MRU-treated fills
equals that clamp. -/
theorem C6_schedule (nw mp q : Int) (hn : 0 < nw) :
    ∃ pol, mkLRUIPVRP nw mp q = some pol ∧
      pol.quantum = (max 1 q).toNat ∧
      (∀ i : Nat, i < pol.quantum →
        (pol.pv.getD i 0 = 1 ↔ (i : Int) < mruCount pol.quantum mp)) ∧
      (∀ (p' : LRUIPVRP) (d : IPVReplData),
        (p'.reset d).1.insPos = (p'.insPos + 1) % p'.quantum ∧
        (p'.reset d).1.pv = p'.pv ∧
        (p'.reset d).1.quantum = p'.quantum) ∧
      (∀ (p' : LRUIPVRP) (ds : List IPVReplData),
        p'.pv = pol.pv → p'.quantum = pol.quantum → p'.insPos < p'.quantum →
        ds.length = p'.quantum →
        (resetFlags p' ds).count true = (mruCount pol.quantum mp).toNat) := by
  refine ⟨{ numWays := nw.toNat, mruPct := mp, quantum := (max 1 q).toNat,
            pv := (List.range (max 1 q).toNat).map
              (fun (i : Nat) =>
                if (i : Int) < mruCount (max 1 q).toNat mp then 1 else 0),
            insPos := 0, setAges := fun _ => [] }, ?_, rfl, ?_, ?_, ?_⟩
  · unfold mkLRUIPVRP
    rw [if_neg (by omega)]
  · intro i hi
    show ((List.range (max 1 q).toNat).map
      (fun (i : Nat) =>
        if (i : Int) < mruCount (max 1 q).toNat mp then 1 else 0)).getD i 0 = 1
      ↔ (i : Int) < mruCount (max 1 q).toNat mp
    rw [pv_getD _ _ hi]
    by_cases h : (i : Int) < mruCount (max 1 q).toNat mp
    · simp [h]
    · simp [h]
  · intro p' d
    exact ⟨rfl, rfl, rfl⟩
  · intro p' ds hpv hq hc hlen
    have hM0 : 0 ≤ mruCount (max 1 q).toNat mp := le_max_left 0 _
    have hMq : mruCount (max 1 q).toNat mp ≤ (((max 1 q).toNat : Nat) : Int) :=
      max_le (Int.natCast_nonneg _) (min_le_left _ _)
    refine resetFlags_count p' (mruCount (max 1 q).toNat mp) hc ?_ hM0 ?_ ds hlen
    · rw [hpv, hq]
    · rw [hq]
      exact hMq

/-- Witness for `C6_schedule` at `numWays = 4`, `mruPct = 50`, `quantum = 2`
(pattern `[MRU, near-LRU]`, as in the spec's Scenario A). -/
theorem C6_schedule_witness :
    ∃ pol, mkLRUIPVRP 4 50 2 = some pol ∧
      pol.quantum = (max 1 (2 : Int)).toNat ∧
      (∀ i : Nat, i < pol.quantum →
        (pol.pv.getD i 0 = 1 ↔ (i : Int) < mruCount pol.quantum 50)) ∧
      (∀ (p' : LRUIPVRP) (d : IPVReplData),
        (p'.reset d).1.insPos = (p'.insPos + 1) % p'.quantum ∧
        (p'.reset d).1.pv = p'.pv ∧
        (p'.reset d).1.quantum = p'.quantum) ∧
      (∀ (p' : LRUIPVRP) (ds : List IPVReplData),
        p'.pv = pol.pv → p'.quantum = pol.quantum → p'.insPos < p'.quantum →
        ds.length = p'.quantum →
        (resetFlags p' ds).count true = (mruCount pol.quantum 50).toNat) :=
  C6_schedule 4 50 2 (by decide)

end LRUIPV
